import Mathlib

/-!
# Verification of the `slice_utils` sequence combinator engine

This file shallowly embeds the iterator-sequence combinators of
`seqencer.go` (package `slice_utils`) and proves the specified properties
about them.

Embedding conventions:

* A Go `iter.Seq[S]` driven over a finite source is modelled by a `List S`
  of the source's elements together with an explicit *drive* function that
  mirrors the Go `for v := range s { ... }` loop of the combinator.
* A visitor (the Go `yield func(S) bool`) is modelled with an explicit
  state type `σ`: `yield : σ → S → σ × Bool`.  The Bool is the Go return
  value (`true` = continue, `false` = stop).  A counting visitor lets us
  observe how often the visitor is invoked, and the drive functions return
  the *unconsumed remainder* of the upstream list so that upstream
  consumption is observable.
* Go `map` values are modelled by association lists (`mapLookup` /
  `mapInsert`); Go map iteration order is unspecified, the model fixes
  key-insertion order, and no theorem below relies on a particular group
  order.
* `regexp.MatchString` and the textual projection performed by the Go
  type switch (`string` / `fmt.Stringer` / `fmt.Sprintf`) are modelled by
  abstract parameters `accepts : String → Bool` and `txt : S → String`.
* `hash/maphash` digests are deterministic per process run for equal
  values; within one run they are modelled by an abstract `h : E → Nat`.
-/

set_option autoImplicit false

/-- Lookup in an association list, modelling Go `val, ok := m[k]`. -/
def mapLookup {K A : Type} [DecidableEq K] : List (K × A) → K → Option A
  | [], _ => none
  | (k, a) :: rest, key => if key = k then some a else mapLookup rest key

/-- Store into an association list, modelling Go `m[k] = a` (replaces an
existing binding, otherwise appends a new one). -/
def mapInsert {K A : Type} [DecidableEq K] : List (K × A) → K → A → List (K × A)
  | [], key, a => [(key, a)]
  | (k, b) :: rest, key, a =>
      if key = k then (key, a) :: rest else (k, b) :: mapInsert rest key a

@[simp]
theorem mapLookup_nil {K A : Type} [DecidableEq K] (key : K) :
    mapLookup ([] : List (K × A)) key = none := rfl

@[simp]
theorem mapLookup_mapInsert {K A : Type} [DecidableEq K]
    (m : List (K × A)) (k : K) (a : A) (key : K) :
    mapLookup (mapInsert m k a) key = if key = k then some a else mapLookup m key := by
  induction m with
  | nil => simp [mapInsert, mapLookup]
  | cons p rest ih =>
      obtain ⟨k', b⟩ := p
      by_cases h : k = k'
      · subst h
        by_cases h2 : key = k <;> simp [mapInsert, mapLookup, h2]
      · by_cases h2 : key = k'
        · subst h2
          simp [mapInsert, mapLookup, h, Ne.symm h]
        · simpa [mapInsert, mapLookup, h, h2] using ih

theorem mapInsert_ne_nil {K A : Type} [DecidableEq K]
    (m : List (K × A)) (k : K) (a : A) : mapInsert m k a ≠ [] := by
  cases m with
  | nil => simp [mapInsert]
  | cons p rest =>
      obtain ⟨k', b⟩ := p
      by_cases h : k = k' <;> simp [mapInsert, h]

/-- A visitor that always answers `false` (stop) and counts its calls. -/
def alwaysFalseCount {S : Type} (n : Nat) (_ : S) : Nat × Bool := (n + 1, false)

/-- A visitor that always answers `true` (continue) and records the
elements it was invoked with, in order. -/
def collectAll {S : Type} (acc : List S) (v : S) : List S × Bool := (acc ++ [v], true)

/-- Two-argument variant of `alwaysFalseCount` for pair sequences. -/
def alwaysFalseCount2 {E : Type} (n : Nat) (_ : Nat) (_ : E) : Nat × Bool := (n + 1, false)

/-- Two-argument variant of `collectAll` for pair sequences. -/
def collectAll2 {E : Type} (acc : List (Nat × E)) (h : Nat) (v : E) :
    List (Nat × E) × Bool := (acc ++ [(h, v)], true)

/-- Drive loop of Go `FilterSeq`:
`for v := range s { if fn(v) { if !yield(v) { return } } }`.
Returns the final visitor state and the unconsumed remainder of the
source. -/
def FilterSeq.drive {S σ : Type} (fn : S → Bool) (yield : σ → S → σ × Bool) :
    List S → σ → σ × List S
  | [], st => (st, [])
  | v :: rest, st =>
      if fn v then
        match yield st v with
        | (st', true) => FilterSeq.drive fn yield rest st'
        | (st', false) => (st', rest)
      else FilterSeq.drive fn yield rest st

/-- The elements produced by `FilterSeq` when driven to completion. -/
def FilterSeq.collect {S : Type} (fn : S → Bool) (s : List S) : List S :=
  (FilterSeq.drive fn collectAll s []).1

theorem filterSeq_drive_collectAll {S : Type} (fn : S → Bool) (src : List S) :
    ∀ acc, FilterSeq.drive fn collectAll src acc = (acc ++ src.filter fn, []) := by
  induction src with
  | nil => intro acc; simp [FilterSeq.drive]
  | cons v rest ih =>
      intro acc
      by_cases h : fn v
      · simp [FilterSeq.drive, h, collectAll, ih, List.filter_cons]
      · simp [FilterSeq.drive, h, ih, List.filter_cons]

theorem filterSeq_collect_eq_filter {S : Type} (fn : S → Bool) (s : List S) :
    FilterSeq.collect fn s = s.filter fn := by
  simp [FilterSeq.collect, filterSeq_drive_collectAll]

theorem filterSeq_drive_stop {S : Type} (fn : S → Bool) (a : List S) (v : S)
    (rest : List S) (ha : ∀ u ∈ a, fn u = false) (hv : fn v = true) :
    ∀ n, FilterSeq.drive fn alwaysFalseCount (a ++ v :: rest) n = (n + 1, rest) := by
  induction a with
  | nil => intro n; simp [FilterSeq.drive, hv, alwaysFalseCount]
  | cons u a' ih =>
      intro n
      have hu : fn u = false := ha u (by simp)
      have := ih (fun w hw => ha w (by simp [hw]))
      simpa [FilterSeq.drive, hu] using this n

/-- The inner loop of Go `RemoveSeq`:
`for v2 := range g { if v1 == v2 { found = true; break } }`. -/
def RemoveSeq.found {S : Type} [DecidableEq S] (v1 : S) : List S → Bool
  | [] => false
  | v2 :: rest => if v1 = v2 then true else RemoveSeq.found v1 rest

/-- Drive loop of Go `RemoveSeq`: for each source element, re-drives the
exclude sequence `g` looking for an equal element, and yields the source
element only when none is found. -/
def RemoveSeq.drive {S σ : Type} [DecidableEq S] (g : List S)
    (yield : σ → S → σ × Bool) : List S → σ → σ × List S
  | [], st => (st, [])
  | v1 :: rest, st =>
      if RemoveSeq.found v1 g then RemoveSeq.drive g yield rest st
      else
        match yield st v1 with
        | (st', true) => RemoveSeq.drive g yield rest st'
        | (st', false) => (st', rest)

/-- The elements produced by `RemoveSeq s g` when driven to completion. -/
def RemoveSeq.collect {S : Type} [DecidableEq S] (s g : List S) : List S :=
  (RemoveSeq.drive g collectAll s []).1

theorem removeSeq_found_iff_mem {S : Type} [DecidableEq S] (v : S) (g : List S) :
    RemoveSeq.found v g = true ↔ v ∈ g := by
  induction g with
  | nil => simp [RemoveSeq.found]
  | cons w g' ih =>
      by_cases h : v = w
      · simp [RemoveSeq.found, h]
      · simp [RemoveSeq.found, h, ih]

theorem removeSeq_drive_collectAll {S : Type} [DecidableEq S] (g : List S)
    (src : List S) :
    ∀ acc, RemoveSeq.drive g collectAll src acc
      = (acc ++ src.filter (fun v => !RemoveSeq.found v g), []) := by
  induction src with
  | nil => intro acc; simp [RemoveSeq.drive]
  | cons v rest ih =>
      intro acc
      by_cases h : RemoveSeq.found v g
      · simp [RemoveSeq.drive, h, ih, List.filter_cons]
      · simp [RemoveSeq.drive, h, collectAll, ih, List.filter_cons]

theorem removeSeq_collect_eq_filter {S : Type} [DecidableEq S] (s g : List S) :
    RemoveSeq.collect s g = s.filter (fun v => !RemoveSeq.found v g) := by
  simp [RemoveSeq.collect, removeSeq_drive_collectAll]

theorem removeSeq_drive_stop {S : Type} [DecidableEq S] (g : List S)
    (a : List S) (v : S) (rest : List S)
    (ha : ∀ u ∈ a, RemoveSeq.found u g = true) (hv : RemoveSeq.found v g = false) :
    ∀ n, RemoveSeq.drive g alwaysFalseCount (a ++ v :: rest) n = (n + 1, rest) := by
  induction a with
  | nil => intro n; simp [RemoveSeq.drive, hv, alwaysFalseCount]
  | cons u a' ih =>
      intro n
      have hu : RemoveSeq.found u g = true := ha u (by simp)
      have := ih (fun w hw => ha w (by simp [hw]))
      simpa [RemoveSeq.drive, hu] using this n

/-- Drive loop of Go `PatternSeq`.  The Go type switch that projects an
element to text (`string` verbatim / `fmt.Stringer` / `fmt.Sprintf`) is
modelled by the abstract projection `txt`, and the compiled regular
expression's `MatchString` by the abstract predicate `accepts`. -/
def PatternSeq.drive {S σ : Type} (txt : S → String) (accepts : String → Bool)
    (yield : σ → S → σ × Bool) : List S → σ → σ × List S
  | [], st => (st, [])
  | v :: rest, st =>
      if accepts (txt v) then
        match yield st v with
        | (st', true) => PatternSeq.drive txt accepts yield rest st'
        | (st', false) => (st', rest)
      else PatternSeq.drive txt accepts yield rest st

/-- The elements produced by `PatternSeq` when driven to completion. -/
def PatternSeq.collect {S : Type} (txt : S → String) (accepts : String → Bool)
    (s : List S) : List S :=
  (PatternSeq.drive txt accepts collectAll s []).1

theorem patternSeq_drive_collectAll {S : Type} (txt : S → String)
    (accepts : String → Bool) (src : List S) :
    ∀ acc, PatternSeq.drive txt accepts collectAll src acc
      = (acc ++ src.filter (fun v => accepts (txt v)), []) := by
  induction src with
  | nil => intro acc; simp [PatternSeq.drive]
  | cons v rest ih =>
      intro acc
      by_cases h : accepts (txt v)
      · simp [PatternSeq.drive, h, collectAll, ih, List.filter_cons]
      · simp [PatternSeq.drive, h, ih, List.filter_cons]

theorem patternSeq_collect_eq_filter {S : Type} (txt : S → String)
    (accepts : String → Bool) (s : List S) :
    PatternSeq.collect txt accepts s = s.filter (fun v => accepts (txt v)) := by
  simp [PatternSeq.collect, patternSeq_drive_collectAll]

theorem patternSeq_drive_stop {S : Type} (txt : S → String)
    (accepts : String → Bool) (a : List S) (v : S) (rest : List S)
    (ha : ∀ u ∈ a, accepts (txt u) = false) (hv : accepts (txt v) = true) :
    ∀ n, PatternSeq.drive txt accepts alwaysFalseCount (a ++ v :: rest) n
      = (n + 1, rest) := by
  induction a with
  | nil => intro n; simp [PatternSeq.drive, hv, alwaysFalseCount]
  | cons u a' ih =>
      intro n
      have hu : accepts (txt u) = false := ha u (by simp)
      have := ih (fun w hw => ha w (by simp [hw]))
      simpa [PatternSeq.drive, hu] using this n

/-- Drive loop of Go `StringPatternSeq`: like `PatternSeq`, but the
textual projection is compared for literal equality with `pattern`. -/
def StringPatternSeq.drive {S σ : Type} (txt : S → String) (pattern : String)
    (yield : σ → S → σ × Bool) : List S → σ → σ × List S
  | [], st => (st, [])
  | v :: rest, st =>
      if txt v = pattern then
        match yield st v with
        | (st', true) => StringPatternSeq.drive txt pattern yield rest st'
        | (st', false) => (st', rest)
      else StringPatternSeq.drive txt pattern yield rest st

/-- The elements produced by `StringPatternSeq` when driven to completion. -/
def StringPatternSeq.collect {S : Type} (txt : S → String) (pattern : String)
    (s : List S) : List S :=
  (StringPatternSeq.drive txt pattern collectAll s []).1

theorem stringPatternSeq_drive_collectAll {S : Type} (txt : S → String)
    (pattern : String) (src : List S) :
    ∀ acc, StringPatternSeq.drive txt pattern collectAll src acc
      = (acc ++ src.filter (fun v => decide (txt v = pattern)), []) := by
  induction src with
  | nil => intro acc; simp [StringPatternSeq.drive]
  | cons v rest ih =>
      intro acc
      by_cases h : txt v = pattern
      · simp [StringPatternSeq.drive, h, collectAll, ih, List.filter_cons]
      · simp [StringPatternSeq.drive, h, ih, List.filter_cons]

theorem stringPatternSeq_collect_eq_filter {S : Type} (txt : S → String)
    (pattern : String) (s : List S) :
    StringPatternSeq.collect txt pattern s
      = s.filter (fun v => decide (txt v = pattern)) := by
  simp [StringPatternSeq.collect, stringPatternSeq_drive_collectAll]

theorem stringPatternSeq_drive_stop {S : Type} (txt : S → String)
    (pattern : String) (a : List S) (v : S) (rest : List S)
    (ha : ∀ u ∈ a, ¬ txt u = pattern) (hv : txt v = pattern) :
    ∀ n, StringPatternSeq.drive txt pattern alwaysFalseCount (a ++ v :: rest) n
      = (n + 1, rest) := by
  induction a with
  | nil => intro n; simp [StringPatternSeq.drive, hv, alwaysFalseCount]
  | cons u a' ih =>
      intro n
      have hu : ¬ txt u = pattern := ha u (by simp)
      have := ih (fun w hw => ha w (by simp [hw]))
      simpa [StringPatternSeq.drive, hu] using this n

/-- Drive loop of Go `DuplicateSeq`.  The closure-captured `m map[V]int`
is threaded explicitly: the drive takes the table the instance currently
holds and returns the updated table (the Go closure keeps it across
drives), together with the final visitor state and the unconsumed
remainder of the source. -/
def DuplicateSeq.drive {V σ : Type} [DecidableEq V] (yield : σ → V → σ × Bool) :
    List V → List (V × Nat) → σ → List (V × Nat) × σ × List V
  | [], m, st => (m, st, [])
  | v :: rest, m, st =>
      match mapLookup m v with
      | some cnt =>
          if cnt = 1 then
            match yield st v with
            | (st', true) => DuplicateSeq.drive yield rest (mapInsert m v (cnt + 1)) st'
            | (st', false) => (mapInsert m v (cnt + 1), st', rest)
          else DuplicateSeq.drive yield rest (mapInsert m v (cnt + 1)) st
      | none => DuplicateSeq.drive yield rest (mapInsert m v 1) st

/-- The elements produced by a fresh `DuplicateSeq` instance (table
initially empty, as allocated by the Go constructor) driven to
completion. -/
def DuplicateSeq.collect {V : Type} [DecidableEq V] (s : List V) : List V :=
  (DuplicateSeq.drive collectAll s [] []).2.1

/-- Spec-side characterization ("yields a value exactly once, at the
moment of its second sighting"): walking the source with the list of
already-seen occurrences, emit `v` exactly when `v` occurred exactly once
before. -/
def dupSecondSightingAux {V : Type} [DecidableEq V] : List V → List V → List V
  | _, [] => []
  | seen, v :: rest =>
      if seen.count v = 1 then v :: dupSecondSightingAux (seen ++ [v]) rest
      else dupSecondSightingAux (seen ++ [v]) rest

/-- Spec-side characterization of `DuplicateSeq` output. -/
def dupSecondSighting {V : Type} [DecidableEq V] (src : List V) : List V :=
  dupSecondSightingAux [] src

/-- Drive loop of Go `DeduplicationSeq`.  The closure-captured
`m map[V]bool` is threaded explicitly, as in `DuplicateSeq.drive`. -/
def DeduplicationSeq.drive {V σ : Type} [DecidableEq V] (yield : σ → V → σ × Bool) :
    List V → List (V × Bool) → σ → List (V × Bool) × σ × List V
  | [], m, st => (m, st, [])
  | v :: rest, m, st =>
      match mapLookup m v with
      | some _ => DeduplicationSeq.drive yield rest m st
      | none =>
          match yield st v with
          | (st', true) => DeduplicationSeq.drive yield rest (mapInsert m v true) st'
          | (st', false) => (mapInsert m v true, st', rest)

/-- The elements produced by a fresh `DeduplicationSeq` instance driven to
completion. -/
def DeduplicationSeq.collect {V : Type} [DecidableEq V] (s : List V) : List V :=
  (DeduplicationSeq.drive collectAll s [] []).2.1

/-- Spec-side characterization ("yields each distinct value exactly once,
on its first sighting, preserving first-seen order"). -/
def dedupFirstSightingAux {V : Type} [DecidableEq V] : List V → List V → List V
  | _, [] => []
  | seen, v :: rest =>
      if v ∈ seen then dedupFirstSightingAux (seen ++ [v]) rest
      else v :: dedupFirstSightingAux (seen ++ [v]) rest

/-- Spec-side characterization of `DeduplicationSeq` output. -/
def dedupFirstSighting {V : Type} [DecidableEq V] (src : List V) : List V :=
  dedupFirstSightingAux [] src

example : DuplicateSeq.collect [1, 2, 3, 1, 4, 2, 5, 1] = ([1, 2] : List Nat) := by decide
example : dupSecondSighting [1, 2, 3, 1, 4, 2, 5, 1] = ([1, 2] : List Nat) := by decide
example : DeduplicationSeq.collect [1, 2, 1, 3, 2] = ([1, 2, 3] : List Nat) := by decide


theorem duplicateSeq_drive_cons_new {V σ : Type} [DecidableEq V]
    (yield : σ → V → σ × Bool) (v : V) (rest : List V) (m : List (V × Nat)) (st : σ)
    (h : mapLookup m v = none) :
    DuplicateSeq.drive yield (v :: rest) m st
      = DuplicateSeq.drive yield rest (mapInsert m v 1) st := by
  simp [DuplicateSeq.drive, h]

theorem duplicateSeq_drive_cons_second {V σ : Type} [DecidableEq V]
    (yield : σ → V → σ × Bool) (v : V) (rest : List V) (m : List (V × Nat)) (st : σ)
    (h : mapLookup m v = some 1) :
    DuplicateSeq.drive yield (v :: rest) m st
      = match yield st v with
        | (st', true) => DuplicateSeq.drive yield rest (mapInsert m v 2) st'
        | (st', false) => (mapInsert m v 2, st', rest) := by
  simp [DuplicateSeq.drive, h]

theorem duplicateSeq_drive_cons_more {V σ : Type} [DecidableEq V]
    (yield : σ → V → σ × Bool) (v : V) (rest : List V) (m : List (V × Nat)) (st : σ)
    (cnt : Nat) (h : mapLookup m v = some cnt) (hc : cnt ≠ 1) :
    DuplicateSeq.drive yield (v :: rest) m st
      = DuplicateSeq.drive yield rest (mapInsert m v (cnt + 1)) st := by
  simp [DuplicateSeq.drive, h, hc]

theorem count_singleton_eq {V : Type} [DecidableEq V] (u w : V) :
    ([w] : List V).count u = if u = w then 1 else 0 := by
  by_cases h : u = w
  · subst h; simp
  · simp [h, List.count_eq_zero]

theorem count_append_singleton {V : Type} [DecidableEq V] (seen : List V) (u w : V) :
    (seen ++ [w]).count u = seen.count u + if u = w then 1 else 0 := by
  rw [List.count_append, count_singleton_eq]

theorem count_cons_split {V : Type} [DecidableEq V] (u w : V) (rest : List V) :
    (w :: rest).count u = rest.count u + if u = w then 1 else 0 := by
  by_cases h : u = w
  · subst h; simp [List.count_cons_self]
  · simp [List.count_cons_of_ne h, h]

theorem duplicateSeq_drive_collectAll_spec {V : Type} [DecidableEq V] (src : List V) :
    ∀ (seen : List V) (m : List (V × Nat)) (acc : List V),
      (∀ u, mapLookup m u = if seen.count u = 0 then none else some (seen.count u)) →
      (DuplicateSeq.drive collectAll src m acc).2.1 = acc ++ dupSecondSightingAux seen src := by
  induction src with
  | nil => intro seen m acc hm; simp [DuplicateSeq.drive, dupSecondSightingAux]
  | cons v rest ih =>
      intro seen m acc hm
      have harg : ∀ a : Nat, a = seen.count v + 1 →
          (∀ u, mapLookup (mapInsert m v a) u
            = if (seen ++ [v]).count u = 0 then none
              else some ((seen ++ [v]).count u)) := by
        intro a ha u
        rw [mapLookup_mapInsert, count_append_singleton]
        by_cases h : u = v
        · subst h; simp [ha]
        · simp [h, hm u]
      by_cases hc : seen.count v = 0
      · have hlv : mapLookup m v = none := by rw [hm v]; simp [hc]
        rw [duplicateSeq_drive_cons_new collectAll v rest m acc hlv]
        rw [ih (seen ++ [v]) (mapInsert m v 1) acc (harg 1 (by omega))]
        have : ¬ seen.count v = 1 := by omega
        simp [dupSecondSightingAux, this]
      · have hlv : mapLookup m v = some (seen.count v) := by rw [hm v]; simp [hc]
        by_cases h1 : seen.count v = 1
        · rw [h1] at hlv
          rw [duplicateSeq_drive_cons_second collectAll v rest m acc hlv]
          have h2 : (2 : Nat) = seen.count v + 1 := by omega
          rw [show collectAll acc v = (acc ++ [v], true) from rfl]
          rw [ih (seen ++ [v]) (mapInsert m v 2) (acc ++ [v]) (harg 2 h2)]
          simp [dupSecondSightingAux, h1]
        · rw [duplicateSeq_drive_cons_more collectAll v rest m acc (seen.count v) hlv h1]
          rw [ih (seen ++ [v]) (mapInsert m v (seen.count v + 1)) acc (harg _ rfl)]
          simp [dupSecondSightingAux, h1]

theorem duplicateSeq_collect_eq_spec {V : Type} [DecidableEq V] (src : List V) :
    DuplicateSeq.collect src = dupSecondSighting src := by
  have h := duplicateSeq_drive_collectAll_spec src [] [] [] (by intro u; simp)
  simpa [DuplicateSeq.collect, dupSecondSighting] using h

theorem dupSecondSightingAux_mem {V : Type} [DecidableEq V] (src : List V) :
    ∀ (seen : List V) (v : V),
      v ∈ dupSecondSightingAux seen src
        ↔ seen.count v ≤ 1 ∧ 2 ≤ seen.count v + src.count v := by
  induction src with
  | nil =>
      intro seen v
      simp only [dupSecondSightingAux, List.not_mem_nil, false_iff, List.count_nil]
      omega
  | cons u rest ih =>
      intro seen v
      by_cases h : v = u
      · subst h
        have h1 : (seen ++ [v]).count v = seen.count v + 1 := by
          rw [count_append_singleton]; simp
        have h2 : (v :: rest).count v = rest.count v + 1 := by
          rw [count_cons_split]; simp
        by_cases hc : seen.count v = 1
        · rw [show dupSecondSightingAux seen (v :: rest)
              = v :: dupSecondSightingAux (seen ++ [v]) rest from by
            simp [dupSecondSightingAux, hc]]
          rw [List.mem_cons, ih (seen ++ [v]) v, h1, h2, hc]
          constructor
          · intro hx; exact ⟨by omega, by omega⟩
          · intro hx; exact Or.inl rfl
        · rw [show dupSecondSightingAux seen (v :: rest)
              = dupSecondSightingAux (seen ++ [v]) rest from by
            simp [dupSecondSightingAux, hc]]
          rw [ih (seen ++ [v]) v, h1, h2]
          omega
      · have h1 : (seen ++ [u]).count v = seen.count v := by
          rw [count_append_singleton]; simp [h]
        have h2 : (u :: rest).count v = rest.count v := by
          rw [count_cons_split]; simp [h]
        by_cases hc : seen.count u = 1
        · rw [show dupSecondSightingAux seen (u :: rest)
              = u :: dupSecondSightingAux (seen ++ [u]) rest from by
            simp [dupSecondSightingAux, hc]]
          rw [List.mem_cons, ih (seen ++ [u]) v, h1, h2]
          constructor
          · rintro (h3 | h3)
            · exact absurd h3 h
            · exact h3
          · intro h3; exact Or.inr h3
        · rw [show dupSecondSightingAux seen (u :: rest)
              = dupSecondSightingAux (seen ++ [u]) rest from by
            simp [dupSecondSightingAux, hc]]
          rw [ih (seen ++ [u]) v, h1, h2]

theorem dupSecondSightingAux_nodup {V : Type} [DecidableEq V] (src : List V) :
    ∀ seen : List V, (dupSecondSightingAux seen src).Nodup := by
  induction src with
  | nil => intro seen; simp [dupSecondSightingAux]
  | cons u rest ih =>
      intro seen
      by_cases hc : seen.count u = 1
      · simp only [dupSecondSightingAux, if_pos hc, List.nodup_cons]
        refine ⟨?_, ih (seen ++ [u])⟩
        have h1 : (seen ++ [u]).count u = seen.count u + 1 := by
          rw [count_append_singleton]; simp
        rw [dupSecondSightingAux_mem, h1, hc]
        omega
      · simpa [dupSecondSightingAux, if_neg hc] using ih (seen ++ [u])

theorem dupSecondSighting_mem {V : Type} [DecidableEq V] (src : List V) (v : V) :
    v ∈ dupSecondSighting src ↔ 2 ≤ src.count v := by
  rw [dupSecondSighting, dupSecondSightingAux_mem]
  simp

theorem dedupSeq_drive_cons_seen {V σ : Type} [DecidableEq V]
    (yield : σ → V → σ × Bool) (v : V) (rest : List V) (m : List (V × Bool)) (st : σ)
    (b : Bool) (h : mapLookup m v = some b) :
    DeduplicationSeq.drive yield (v :: rest) m st
      = DeduplicationSeq.drive yield rest m st := by
  simp [DeduplicationSeq.drive, h]

theorem dedupSeq_drive_cons_new {V σ : Type} [DecidableEq V]
    (yield : σ → V → σ × Bool) (v : V) (rest : List V) (m : List (V × Bool)) (st : σ)
    (h : mapLookup m v = none) :
    DeduplicationSeq.drive yield (v :: rest) m st
      = match yield st v with
        | (st', true) => DeduplicationSeq.drive yield rest (mapInsert m v true) st'
        | (st', false) => (mapInsert m v true, st', rest) := by
  simp [DeduplicationSeq.drive, h]

theorem dedupSeq_drive_collectAll_spec {V : Type} [DecidableEq V] (src : List V) :
    ∀ (seen : List V) (m : List (V × Bool)) (acc : List V),
      (∀ u, (mapLookup m u).isSome = true ↔ u ∈ seen) →
      (DeduplicationSeq.drive collectAll src m acc).2.1
        = acc ++ dedupFirstSightingAux seen src := by
  induction src with
  | nil => intro seen m acc hm; simp [DeduplicationSeq.drive, dedupFirstSightingAux]
  | cons v rest ih =>
      intro seen m acc hm
      by_cases hv : v ∈ seen
      · obtain ⟨b, hb⟩ : ∃ b, mapLookup m v = some b := by
          have := (hm v).mpr hv
          cases hx : mapLookup m v with
          | none => rw [hx] at this; simp at this
          | some b => exact ⟨b, rfl⟩
        rw [dedupSeq_drive_cons_seen collectAll v rest m acc b hb]
        have harg : ∀ u, (mapLookup m u).isSome = true ↔ u ∈ seen ++ [v] := by
          intro u
          rw [hm u]
          constructor
          · intro hx; exact List.mem_append_left _ hx
          · intro hx
            rcases List.mem_append.mp hx with hx | hx
            · exact hx
            · simp at hx; subst hx; exact hv
        rw [ih (seen ++ [v]) m acc harg]
        simp [dedupFirstSightingAux, hv]
      · have hb : mapLookup m v = none := by
          cases hx : mapLookup m v with
          | none => rfl
          | some b =>
              exfalso
              exact hv ((hm v).mp (by rw [hx]; rfl))
        rw [dedupSeq_drive_cons_new collectAll v rest m acc hb]
        rw [show collectAll acc v = (acc ++ [v], true) from rfl]
        have harg : ∀ u, (mapLookup (mapInsert m v true) u).isSome = true
            ↔ u ∈ seen ++ [v] := by
          intro u
          rw [mapLookup_mapInsert]
          by_cases h : u = v
          · subst h; simp
          · rw [if_neg h, hm u]
            simp [h]
        rw [ih (seen ++ [v]) (mapInsert m v true) (acc ++ [v]) harg]
        simp [dedupFirstSightingAux, hv]

theorem dedupSeq_collect_eq_spec {V : Type} [DecidableEq V] (src : List V) :
    DeduplicationSeq.collect src = dedupFirstSighting src := by
  have h := dedupSeq_drive_collectAll_spec src [] [] [] (by intro u; simp)
  simpa [DeduplicationSeq.collect, dedupFirstSighting] using h

theorem dedupFirstSightingAux_mem {V : Type} [DecidableEq V] (src : List V) :
    ∀ (seen : List V) (v : V),
      v ∈ dedupFirstSightingAux seen src ↔ v ∉ seen ∧ v ∈ src := by
  induction src with
  | nil => intro seen v; simp [dedupFirstSightingAux]
  | cons u rest ih =>
      intro seen v
      by_cases hu : u ∈ seen
      · rw [show dedupFirstSightingAux seen (u :: rest)
            = dedupFirstSightingAux (seen ++ [u]) rest from by
          simp [dedupFirstSightingAux, hu]]
        rw [ih (seen ++ [u]) v]
        simp only [List.mem_append, List.mem_singleton, List.mem_cons,
          List.not_mem_nil, or_false]
        constructor
        · rintro ⟨ha, hb⟩
          exact ⟨fun hx => ha (Or.inl hx), Or.inr hb⟩
        · rintro ⟨ha, hb | hb⟩
          · subst hb; exact absurd hu ha
          · refine ⟨?_, hb⟩
            rintro (hx | hx)
            · exact ha hx
            · subst hx; exact ha hu
      · rw [show dedupFirstSightingAux seen (u :: rest)
            = u :: dedupFirstSightingAux (seen ++ [u]) rest from by
          simp [dedupFirstSightingAux, hu]]
        rw [List.mem_cons, ih (seen ++ [u]) v]
        simp only [List.mem_append, List.mem_singleton, List.mem_cons,
          List.not_mem_nil, or_false]
        constructor
        · rintro (rfl | ⟨ha, hb⟩)
          · exact ⟨hu, Or.inl rfl⟩
          · exact ⟨fun hx => ha (Or.inl hx), Or.inr hb⟩
        · rintro ⟨ha, hb | hb⟩
          · exact Or.inl hb
          · by_cases hx : v = u
            · exact Or.inl hx
            · exact Or.inr ⟨fun hy => (by
                rcases hy with hy | hy
                · exact ha hy
                · exact hx hy), hb⟩

theorem dedupFirstSightingAux_nodup {V : Type} [DecidableEq V] (src : List V) :
    ∀ seen : List V, (dedupFirstSightingAux seen src).Nodup := by
  induction src with
  | nil => intro seen; simp [dedupFirstSightingAux]
  | cons u rest ih =>
      intro seen
      by_cases hu : u ∈ seen
      · simpa [dedupFirstSightingAux, hu] using ih (seen ++ [u])
      · simp only [dedupFirstSightingAux, if_neg hu, List.nodup_cons]
        refine ⟨?_, ih (seen ++ [u])⟩
        rw [dedupFirstSightingAux_mem]
        rintro ⟨ha, _⟩
        exact ha (List.mem_append_right _ (by simp))

theorem dedupFirstSightingAux_of_nodup {V : Type} [DecidableEq V] (src : List V) :
    ∀ seen : List V, src.Nodup → (∀ v ∈ src, v ∉ seen) →
      dedupFirstSightingAux seen src = src := by
  induction src with
  | nil => intro seen _ _; simp [dedupFirstSightingAux]
  | cons u rest ih =>
      intro seen hnd hdisj
      have hu : u ∉ seen := hdisj u (by simp)
      rw [show dedupFirstSightingAux seen (u :: rest)
          = u :: dedupFirstSightingAux (seen ++ [u]) rest from by
        simp [dedupFirstSightingAux, hu]]
      rw [ih (seen ++ [u]) (List.Nodup.of_cons hnd)]
      intro v hv
      rw [List.mem_append, List.mem_singleton]
      rintro (hx | hx)
      · exact hdisj v (by simp [hv]) hx
      · subst hx
        exact (List.nodup_cons.mp hnd).1 hv

theorem dedupSeq_finalMap_preserves {V : Type} [DecidableEq V] (src : List V) :
    ∀ (m : List (V × Bool)) (acc : List V) (u : V),
      (mapLookup m u).isSome = true →
      (mapLookup (DeduplicationSeq.drive collectAll src m acc).1 u).isSome = true := by
  induction src with
  | nil => intro m acc u h; simpa [DeduplicationSeq.drive] using h
  | cons v rest ih =>
      intro m acc u h
      cases hx : mapLookup m v with
      | some b =>
          rw [dedupSeq_drive_cons_seen collectAll v rest m acc b hx]
          exact ih m acc u h
      | none =>
          rw [dedupSeq_drive_cons_new collectAll v rest m acc hx]
          rw [show collectAll acc v = (acc ++ [v], true) from rfl]
          refine ih (mapInsert m v true) (acc ++ [v]) u ?_
          rw [mapLookup_mapInsert]
          by_cases hy : u = v
          · simp [hy]
          · simpa [hy] using h

theorem dedupSeq_finalMap_covers {V : Type} [DecidableEq V] (src : List V) :
    ∀ (m : List (V × Bool)) (acc : List V) (u : V), u ∈ src →
      (mapLookup (DeduplicationSeq.drive collectAll src m acc).1 u).isSome = true := by
  induction src with
  | nil => intro m acc u h; simp at h
  | cons v rest ih =>
      intro m acc u h
      cases hx : mapLookup m v with
      | some b =>
          rw [dedupSeq_drive_cons_seen collectAll v rest m acc b hx]
          rcases List.mem_cons.mp h with h | h
          · subst h
            exact dedupSeq_finalMap_preserves rest m acc u (by rw [hx]; rfl)
          · exact ih m acc u h
      | none =>
          rw [dedupSeq_drive_cons_new collectAll v rest m acc hx]
          rw [show collectAll acc v = (acc ++ [v], true) from rfl]
          rcases List.mem_cons.mp h with h | h
          · subst h
            refine dedupSeq_finalMap_preserves rest (mapInsert m u true)
              (acc ++ [u]) u ?_
            simp [mapLookup_mapInsert]
          · exact ih (mapInsert m v true) (acc ++ [v]) u h

theorem dedupSeq_drive_allSeen {V : Type} [DecidableEq V] (src : List V) :
    ∀ (m : List (V × Bool)) (acc : List V),
      (∀ v ∈ src, (mapLookup m v).isSome = true) →
      (DeduplicationSeq.drive collectAll src m acc).2.1 = acc := by
  induction src with
  | nil => intro m acc _; simp [DeduplicationSeq.drive]
  | cons v rest ih =>
      intro m acc h
      obtain ⟨b, hb⟩ : ∃ b, mapLookup m v = some b := by
        have := h v (by simp)
        cases hx : mapLookup m v with
        | none => rw [hx] at this; simp at this
        | some b => exact ⟨b, rfl⟩
      rw [dedupSeq_drive_cons_seen collectAll v rest m acc b hb]
      exact ih m acc (fun u hu => h u (by simp [hu]))

theorem dedupSeq_drive_stop {V : Type} [DecidableEq V] (v : V)
    (rest : List V) (n : Nat) :
    DeduplicationSeq.drive alwaysFalseCount (v :: rest) [] n
      = (mapInsert [] v true, n + 1, rest) := by
  simp [DeduplicationSeq.drive, alwaysFalseCount]

theorem duplicateSeq_drive_fresh_segment {V σ : Type} [DecidableEq V]
    (yield : σ → V → σ × Bool) (seg : List V) :
    ∀ (m : List (V × Nat)) (st : σ) (tail : List V), seg.Nodup →
      (∀ u ∈ seg, mapLookup m u = none) →
      ∃ m', DuplicateSeq.drive yield (seg ++ tail) m st
          = DuplicateSeq.drive yield tail m' st
        ∧ (∀ u, mapLookup m' u = if u ∈ seg then some 1 else mapLookup m u) := by
  induction seg with
  | nil =>
      intro m st tail _ _
      exact ⟨m, rfl, by intro u; simp⟩
  | cons w seg' ih =>
      intro m st tail hnd hfresh
      have hw : mapLookup m w = none := hfresh w (by simp)
      rw [show (w :: seg') ++ tail = w :: (seg' ++ tail) from rfl]
      rw [duplicateSeq_drive_cons_new yield w (seg' ++ tail) m st hw]
      have hnd' := List.nodup_cons.mp hnd
      have hside : ∀ u ∈ seg', mapLookup (mapInsert m w 1) u = none := by
        intro u hu
        rw [mapLookup_mapInsert]
        have : u ≠ w := fun hx => hnd'.1 (hx ▸ hu)
        rw [if_neg this]
        exact hfresh u (by simp [hu])
      obtain ⟨m', hm', hlook⟩ := ih (mapInsert m w 1) st tail hnd'.2 hside
      refine ⟨m', hm', ?_⟩
      intro u
      rw [hlook u, mapLookup_mapInsert]
      by_cases h1 : u ∈ seg'
      · have : u ≠ w := fun hx => hnd'.1 (hx ▸ h1)
        simp [h1, this]
      · by_cases h2 : u = w
        · subst h2; simp [h1]
        · simp [h1, h2]

theorem duplicateSeq_drive_stop {V : Type} [DecidableEq V] (a : List V) (v : V)
    (b rest : List V) (hnd : (a ++ v :: b).Nodup) (n : Nat) :
    (DuplicateSeq.drive alwaysFalseCount ((a ++ v :: b) ++ v :: rest) [] n).2
      = (n + 1, rest) := by
  obtain ⟨m', hm', hlook⟩ := duplicateSeq_drive_fresh_segment alwaysFalseCount
    (a ++ v :: b) [] n (v :: rest) hnd (by intro u _; simp)
  rw [hm']
  have hv : mapLookup m' v = some 1 := by
    rw [hlook v, if_pos (by simp)]
  rw [duplicateSeq_drive_cons_second alwaysFalseCount v rest m' n hv]
  simp [alwaysFalseCount]

/-- Drive loop of Go `HashSeq`.  Per element the Go code resets the
`maphash.Hash`, folds the value in and yields `(h.Sum64(), v)`; within one
process run this digest is a deterministic function of the value, modelled
by the abstract parameter `h`. -/
def HashSeq.drive {E σ : Type} (h : E → Nat) (yield : σ → Nat → E → σ × Bool) :
    List E → σ → σ × List E
  | [], st => (st, [])
  | v :: rest, st =>
      match yield st (h v) v with
      | (st', true) => HashSeq.drive h yield rest st'
      | (st', false) => (st', rest)

/-- The pairs produced by `HashSeq` when driven to completion. -/
def HashSeq.collect {E : Type} (h : E → Nat) (s : List E) : List (Nat × E) :=
  (HashSeq.drive h collectAll2 s []).1

/-- The constructor body of Go `GroupSeq`: `for v := range s { ... }`
eagerly drains the whole source, appending each element to the slice
stored under its key, before the sequence closure is returned.  The
second component is the part of the source left unconsumed when the
constructor returns (by the structure of the loop, always `[]`). -/
def GroupSeq.build {E H : Type} [DecidableEq H] (fn : E → H) :
    List E → List (H × List E) → List (H × List E) × List E
  | [], groups => (groups, [])
  | v :: rest, groups =>
      GroupSeq.build fn rest
        (mapInsert groups (fn v) (((mapLookup groups (fn v)).getD []) ++ [v]))

/-- Construction of Go `GroupSeq`: builds the group table from an empty
map by draining the source. -/
def GroupSeq.construct {E H : Type} [DecidableEq H] (fn : E → H) (s : List E) :
    List (H × List E) × List E :=
  GroupSeq.build fn s []

/-- Drive loop of the sequence returned by Go `GroupSeq`:
`for _, v := range groups { if !yield(v) { return } }` (the model fixes
key-insertion order for the map iteration; no theorem relies on it). -/
def GroupSeq.drive {E H σ : Type} (yield : σ → List E → σ × Bool) :
    List (H × List E) → σ → σ × List (H × List E)
  | [], st => (st, [])
  | (_, g) :: rest, st =>
      match yield st g with
      | (st', true) => GroupSeq.drive yield rest st'
      | (st', false) => (st', rest)

theorem groupSeq_build_remaining {E H : Type} [DecidableEq H] (fn : E → H) :
    ∀ (s : List E) (groups : List (H × List E)), (GroupSeq.build fn s groups).2 = [] := by
  intro s
  induction s with
  | nil => intro groups; simp [GroupSeq.build]
  | cons v rest ih => intro groups; simpa [GroupSeq.build] using ih _

theorem groupSeq_build_ne_nil {E H : Type} [DecidableEq H] (fn : E → H) :
    ∀ (s : List E) (groups : List (H × List E)),
      groups ≠ [] ∨ s ≠ [] → (GroupSeq.build fn s groups).1 ≠ [] := by
  intro s
  induction s with
  | nil =>
      intro groups h
      rcases h with h | h
      · simpa [GroupSeq.build] using h
      · exact absurd rfl h
  | cons v rest ih =>
      intro groups _
      rw [show GroupSeq.build fn (v :: rest) groups
          = GroupSeq.build fn rest
              (mapInsert groups (fn v) (((mapLookup groups (fn v)).getD []) ++ [v]))
        from rfl]
      exact ih _ (Or.inl (mapInsert_ne_nil _ _ _))

theorem groupSeq_drive_stop {E H : Type} (gs : List (H × List E)) (n : Nat)
    (h : gs ≠ []) :
    (GroupSeq.drive alwaysFalseCount gs n).1 = n + 1 := by
  cases gs with
  | nil => exact absurd rfl h
  | cons p rest =>
      obtain ⟨k, g⟩ := p
      simp [GroupSeq.drive, alwaysFalseCount]

/-- Go `CountSeq`: `for range s { result++ }`. -/
def CountSeq.go {S : Type} : List S → Nat → Nat
  | [], result => result
  | _ :: rest, result => CountSeq.go rest (result + 1)

/-- Go `CountSeq` (terminal): drains the source, counting elements. -/
def CountSeq {S : Type} (s : List S) : Nat := CountSeq.go s 0

/-- Loop of Go `SumFuncSeq`: `val, err := fn(v); if err != nil { return
*new(T), err }; result += val`. -/
def SumFuncSeq.go {S T E : Type} [Add T] [Zero T] (fn : S → T × Option E) :
    List S → T → T × Option E
  | [], result => (result, none)
  | v :: rest, result =>
      match fn v with
      | (_, some e) => ((0 : T), some e)
      | (val, none) => SumFuncSeq.go fn rest (result + val)

/-- Go `SumFuncSeq` (terminal): fallible sum, starting from the zero value
of the result type. -/
def SumFuncSeq {S T E : Type} [Add T] [Zero T] (fn : S → T × Option E)
    (s : List S) : T × Option E :=
  SumFuncSeq.go fn s 0

/-- Go `SumSeq` (terminal): `items := slices.Collect(s); slices.Sort(items)`
then `result += v` over the sorted slice.  The sort is modelled by
insertion sort, which agrees with any correct ascending sort on a linear
order. -/
def SumSeq {S : Type} [LinearOrder S] [Add S] [Zero S] (s : List S) : S :=
  (List.insertionSort (fun a b => a ≤ b) s).foldl (fun acc v => acc + v) 0

/-- Go `IsEmptySeq` (terminal): `for range s { return false }; return true`
(the embedded visitor returns `false` on the first element). -/
def IsEmptySeq {S : Type} : List S → Bool
  | [] => true
  | _ :: _ => false

/-- Drive loop of Go `ReplaceFuncSeq`: yields `fn(v)` for every element. -/
def ReplaceFuncSeq.drive {S σ : Type} (fn : S → S) (yield : σ → S → σ × Bool) :
    List S → σ → σ × List S
  | [], st => (st, [])
  | v :: rest, st =>
      match yield st (fn v) with
      | (st', true) => ReplaceFuncSeq.drive fn yield rest st'
      | (st', false) => (st', rest)

/-- The elements produced by `ReplaceFuncSeq` when driven to completion. -/
def ReplaceFuncSeq.collect {S : Type} (fn : S → S) (s : List S) : List S :=
  (ReplaceFuncSeq.drive fn collectAll s []).1

/-- Drive loop of Go `ReplaceSeq`: yields `g[v]` when `v` is a key of the
replacement table, else yields `v` unchanged. -/
def ReplaceSeq.drive {S σ : Type} [DecidableEq S] (g : List (S × S))
    (yield : σ → S → σ × Bool) : List S → σ → σ × List S
  | [], st => (st, [])
  | v :: rest, st =>
      match mapLookup g v with
      | some r =>
          match yield st r with
          | (st', true) => ReplaceSeq.drive g yield rest st'
          | (st', false) => (st', rest)
      | none =>
          match yield st v with
          | (st', true) => ReplaceSeq.drive g yield rest st'
          | (st', false) => (st', rest)

/-- The elements produced by `ReplaceSeq` when driven to completion. -/
def ReplaceSeq.collect {S : Type} [DecidableEq S] (g : List (S × S))
    (s : List S) : List S :=
  (ReplaceSeq.drive g collectAll s []).1

/-- Drive loop of Go `ConvertSeq`: yields `fn(v) : T` for every element. -/
def ConvertSeq.drive {S T σ : Type} (fn : S → T) (yield : σ → T → σ × Bool) :
    List S → σ → σ × List S
  | [], st => (st, [])
  | v :: rest, st =>
      match yield st (fn v) with
      | (st', true) => ConvertSeq.drive fn yield rest st'
      | (st', false) => (st', rest)

/-- The elements produced by `ConvertSeq` when driven to completion. -/
def ConvertSeq.collect {S T : Type} (fn : S → T) (s : List S) : List T :=
  (ConvertSeq.drive fn collectAll s []).1

/-- Model of a Go `any` value known to wrap an `S`: `AnySeq` passes each
element through `any(v)`, a type-erasing injection. -/
structure GoAny (S : Type) where
  val : S
deriving DecidableEq

/-- Drive loop of Go `AnySeq`: yields `any(v)` for every element. -/
def AnySeq.drive {S σ : Type} (yield : σ → GoAny S → σ × Bool) :
    List S → σ → σ × List S
  | [], st => (st, [])
  | v :: rest, st =>
      match yield st (GoAny.mk v) with
      | (st', true) => AnySeq.drive yield rest st'
      | (st', false) => (st', rest)

/-- The elements produced by `AnySeq` when driven to completion. -/
def AnySeq.collect {S : Type} (s : List S) : List (GoAny S) :=
  (AnySeq.drive collectAll s []).1

theorem replaceFuncSeq_drive_collectAll {S : Type} (fn : S → S) (src : List S) :
    ∀ acc, ReplaceFuncSeq.drive fn collectAll src acc = (acc ++ src.map fn, []) := by
  induction src with
  | nil => intro acc; simp [ReplaceFuncSeq.drive]
  | cons v rest ih =>
      intro acc
      simp [ReplaceFuncSeq.drive, collectAll, ih]

theorem replaceFuncSeq_collect_eq_map {S : Type} (fn : S → S) (s : List S) :
    ReplaceFuncSeq.collect fn s = s.map fn := by
  simp [ReplaceFuncSeq.collect, replaceFuncSeq_drive_collectAll]

theorem replaceFuncSeq_drive_stop {S : Type} (fn : S → S) (v : S) (rest : List S)
    (n : Nat) :
    ReplaceFuncSeq.drive fn alwaysFalseCount (v :: rest) n = (n + 1, rest) := by
  simp [ReplaceFuncSeq.drive, alwaysFalseCount]

theorem replaceSeq_drive_collectAll {S : Type} [DecidableEq S] (g : List (S × S))
    (src : List S) :
    ∀ acc, ReplaceSeq.drive g collectAll src acc
      = (acc ++ src.map (fun v => (mapLookup g v).getD v), []) := by
  induction src with
  | nil => intro acc; simp [ReplaceSeq.drive]
  | cons v rest ih =>
      intro acc
      cases hx : mapLookup g v with
      | some r => simp [ReplaceSeq.drive, hx, collectAll, ih]
      | none => simp [ReplaceSeq.drive, hx, collectAll, ih]

theorem replaceSeq_collect_eq_map {S : Type} [DecidableEq S] (g : List (S × S))
    (s : List S) :
    ReplaceSeq.collect g s = s.map (fun v => (mapLookup g v).getD v) := by
  simp [ReplaceSeq.collect, replaceSeq_drive_collectAll]

theorem replaceSeq_drive_stop {S : Type} [DecidableEq S] (g : List (S × S))
    (v : S) (rest : List S) (n : Nat) :
    ReplaceSeq.drive g alwaysFalseCount (v :: rest) n = (n + 1, rest) := by
  cases hx : mapLookup g v with
  | some r => simp [ReplaceSeq.drive, hx, alwaysFalseCount]
  | none => simp [ReplaceSeq.drive, hx, alwaysFalseCount]

theorem convertSeq_drive_collectAll {S T : Type} (fn : S → T) (src : List S) :
    ∀ acc, ConvertSeq.drive fn collectAll src acc = (acc ++ src.map fn, []) := by
  induction src with
  | nil => intro acc; simp [ConvertSeq.drive]
  | cons v rest ih =>
      intro acc
      simp [ConvertSeq.drive, collectAll, ih]

theorem convertSeq_collect_eq_map {S T : Type} (fn : S → T) (s : List S) :
    ConvertSeq.collect fn s = s.map fn := by
  simp [ConvertSeq.collect, convertSeq_drive_collectAll]

theorem convertSeq_drive_stop {S T : Type} (fn : S → T) (v : S) (rest : List S)
    (n : Nat) :
    ConvertSeq.drive fn alwaysFalseCount (v :: rest) n = (n + 1, rest) := by
  simp [ConvertSeq.drive, alwaysFalseCount]

theorem anySeq_drive_collectAll {S : Type} (src : List S) :
    ∀ acc, AnySeq.drive collectAll src acc = (acc ++ src.map GoAny.mk, []) := by
  induction src with
  | nil => intro acc; simp [AnySeq.drive]
  | cons v rest ih =>
      intro acc
      simp [AnySeq.drive, collectAll, ih]

theorem anySeq_collect_eq_map {S : Type} (s : List S) :
    AnySeq.collect s = s.map GoAny.mk := by
  simp [AnySeq.collect, anySeq_drive_collectAll]

theorem anySeq_drive_stop {S : Type} (v : S) (rest : List S) (n : Nat) :
    AnySeq.drive alwaysFalseCount (v :: rest) n = (n + 1, rest) := by
  simp [AnySeq.drive, alwaysFalseCount]

theorem hashSeq_drive_stop {E : Type} (h : E → Nat) (v : E) (rest : List E)
    (n : Nat) :
    HashSeq.drive h alwaysFalseCount2 (v :: rest) n = (n + 1, rest) := by
  simp [HashSeq.drive, alwaysFalseCount2]

/-- The constructor body of Go `FilterSeq` only wraps `s` and `fn` in a
returned closure; it drives nothing, so the whole upstream source is still
unconsumed when construction returns. -/
def FilterSeq.construct {S : Type} (fn : S → Bool) (s : List S) : List S := s

/-- Constructor body of Go `RemoveSeq`: captures `s` and `g`, drives
nothing. -/
def RemoveSeq.construct {S : Type} (s g : List S) : List S := s

/-- Constructor body of Go `PatternSeq`: captures `s` and the compiled
pattern, drives nothing. -/
def PatternSeq.construct {S : Type} (txt : S → String) (accepts : String → Bool)
    (s : List S) : List S := s

/-- Constructor body of Go `StringPatternSeq`: captures `s` and the
literal, drives nothing. -/
def StringPatternSeq.construct {S : Type} (txt : S → String) (pattern : String)
    (s : List S) : List S := s

/-- Constructor body of Go `DuplicateSeq`: allocates the empty count table
and returns a closure; it drives nothing. -/
def DuplicateSeq.construct {V : Type} (s : List V) : List (V × Nat) × List V :=
  ([], s)

/-- Constructor body of Go `DeduplicationSeq`: allocates the empty seen
table and returns a closure; it drives nothing. -/
def DeduplicationSeq.construct {V : Type} (s : List V) : List (V × Bool) × List V :=
  ([], s)

/-- Constructor body of Go `HashSeq`: allocates the hash state and returns
a closure; it drives nothing. -/
def HashSeq.construct {E : Type} (s : List E) : List E := s

/-- Constructor body of Go `ReplaceFuncSeq`: captures and drives
nothing. -/
def ReplaceFuncSeq.construct {S : Type} (fn : S → S) (s : List S) : List S := s

/-- Constructor body of Go `ReplaceSeq`: captures and drives nothing. -/
def ReplaceSeq.construct {S : Type} (g : List (S × S)) (s : List S) : List S := s

/-- Constructor body of Go `ConvertSeq`: captures and drives nothing. -/
def ConvertSeq.construct {S T : Type} (fn : S → T) (s : List S) : List S := s

/-- Constructor body of Go `AnySeq`: captures and drives nothing. -/
def AnySeq.construct {S : Type} (s : List S) : List S := s

theorem sumFuncSeq_go_success {S T E : Type} [Add T] [Zero T]
    (fn : S → T × Option E) (src : List S) :
    ∀ acc, (∀ v ∈ src, (fn v).2 = none) →
      SumFuncSeq.go fn src acc = (src.foldl (fun a v => a + (fn v).1) acc, none) := by
  induction src with
  | nil => intro acc _; simp [SumFuncSeq.go]
  | cons v rest ih =>
      intro acc h
      rcases hx : fn v with ⟨val, err⟩
      have : err = none := by
        have := h v (by simp)
        rw [hx] at this
        exact this
      subst this
      rw [show SumFuncSeq.go fn (v :: rest) acc
          = SumFuncSeq.go fn rest (acc + val) from by simp [SumFuncSeq.go, hx]]
      rw [ih (acc + val) (fun u hu => h u (by simp [hu]))]
      simp [List.foldl_cons, hx]

theorem sumFuncSeq_go_error {S T E : Type} [Add T] [Zero T]
    (fn : S → T × Option E) (a : List S) (e : S) (rest : List S) (err : E)
    (ha : ∀ v ∈ a, (fn v).2 = none) (he : (fn e).2 = some err) :
    ∀ acc, SumFuncSeq.go fn (a ++ e :: rest) acc = (0, some err) := by
  induction a with
  | nil =>
      intro acc
      rcases hx : fn e with ⟨val, err'⟩
      have : err' = some err := by
        rw [hx] at he
        exact he
      subst this
      simp [SumFuncSeq.go, hx]
  | cons v a' ih =>
      intro acc
      rcases hx : fn v with ⟨val, err'⟩
      have : err' = none := by
        have := ha v (by simp)
        rw [hx] at this
        exact this
      subst this
      rw [show ((v :: a') ++ e :: rest) = v :: (a' ++ e :: rest) from rfl]
      rw [show SumFuncSeq.go fn (v :: (a' ++ e :: rest)) acc
          = SumFuncSeq.go fn (a' ++ e :: rest) (acc + val) from by
        simp [SumFuncSeq.go, hx]]
      exact ih (fun u hu => ha u (by simp [hu])) (acc + val)

theorem SumSeq_perm {S : Type} [LinearOrder S] [Add S] [Zero S]
    (l l' : List S) (h : l.Perm l') : SumSeq l = SumSeq l' := by
  have hs : List.insertionSort (fun a b => a ≤ b) l
      = List.insertionSort (fun a b => a ≤ b) l' :=
    List.eq_of_perm_of_sorted
      (((List.perm_insertionSort (fun a b => a ≤ b) l).trans h).trans
        (List.perm_insertionSort (fun a b => a ≤ b) l').symm)
      (List.sorted_insertionSort (fun a b => a ≤ b) l)
      (List.sorted_insertionSort (fun a b => a ≤ b) l')
  rw [SumSeq, SumSeq, hs]

theorem removeSeq_found_eq_decide {S : Type} [DecidableEq S] (v : S) (g : List S) :
    RemoveSeq.found v g = decide (v ∈ g) := by
  by_cases hv : v ∈ g
  · simp [hv, (removeSeq_found_iff_mem v g).mpr hv]
  · simp only [hv, decide_eq_false_iff_not]
    exact Bool.eq_false_iff.mpr (fun hx => hv ((removeSeq_found_iff_mem v g).mp hx))

/-- C7: `RemoveSeq s g` yields, in source order, exactly those elements of
`s` that are not equal to any element produced by `g`; in particular
`[1,2,3,4,5]` minus `[2,4]` yields `[1,3,5]`, and removing an empty
exclude sequence leaves the source unchanged. -/
theorem removeSeq_membership_difference :
    (∀ (S : Type) [DecidableEq S] (s g : List S),
        RemoveSeq.collect s g = s.filter (fun v => decide (v ∉ g)))
    ∧ RemoveSeq.collect [1, 2, 3, 4, 5] [2, 4] = ([1, 3, 5] : List Nat)
    ∧ (∀ (S : Type) [DecidableEq S] (s : List S), RemoveSeq.collect s [] = s) := by
  refine ⟨?_, by decide, ?_⟩
  · intro S _ s g
    rw [removeSeq_collect_eq_filter]
    apply List.filter_congr
    intro v _
    rw [removeSeq_found_eq_decide]
    by_cases hv : v ∈ g <;> simp [hv]
  · intro S _ s
    rw [removeSeq_collect_eq_filter]
    have : ∀ v : S, RemoveSeq.found v [] = false := fun v => rfl
    simp [this]

/-- C9: the outputs of `FilterSeq`, `PatternSeq` and `StringPatternSeq`
are subsequences of the input (same relative order, cardinality at most
the input's), and the outputs of `ReplaceFuncSeq`, `ReplaceSeq`,
`ConvertSeq` and `AnySeq` are exactly the elementwise image of the input
in input order, with identical cardinality. -/
theorem order_preservation_all :
    (∀ (S : Type) (fn : S → Bool) (s : List S),
        (FilterSeq.collect fn s).Sublist s
        ∧ (FilterSeq.collect fn s).length ≤ s.length)
    ∧ (∀ (S : Type) (txt : S → String) (accepts : String → Bool) (s : List S),
        (PatternSeq.collect txt accepts s).Sublist s
        ∧ (PatternSeq.collect txt accepts s).length ≤ s.length)
    ∧ (∀ (S : Type) (txt : S → String) (pattern : String) (s : List S),
        (StringPatternSeq.collect txt pattern s).Sublist s
        ∧ (StringPatternSeq.collect txt pattern s).length ≤ s.length)
    ∧ (∀ (S : Type) (fn : S → S) (s : List S),
        ReplaceFuncSeq.collect fn s = s.map fn
        ∧ (ReplaceFuncSeq.collect fn s).length = s.length)
    ∧ (∀ (S : Type) [DecidableEq S] (g : List (S × S)) (s : List S),
        ReplaceSeq.collect g s = s.map (fun v => (mapLookup g v).getD v)
        ∧ (ReplaceSeq.collect g s).length = s.length)
    ∧ (∀ (S T : Type) (fn : S → T) (s : List S),
        ConvertSeq.collect fn s = s.map fn
        ∧ (ConvertSeq.collect fn s).length = s.length)
    ∧ (∀ (S : Type) (s : List S),
        AnySeq.collect s = s.map GoAny.mk
        ∧ (AnySeq.collect s).length = s.length) := by
  refine ⟨?_, ?_, ?_, ?_, ?_, ?_, ?_⟩
  · intro S fn s
    rw [filterSeq_collect_eq_filter]
    exact ⟨List.filter_sublist s, (List.filter_sublist s).length_le⟩
  · intro S txt accepts s
    rw [patternSeq_collect_eq_filter]
    exact ⟨List.filter_sublist s, (List.filter_sublist s).length_le⟩
  · intro S txt pattern s
    rw [stringPatternSeq_collect_eq_filter]
    exact ⟨List.filter_sublist s, (List.filter_sublist s).length_le⟩
  · intro S fn s
    rw [replaceFuncSeq_collect_eq_map]
    exact ⟨rfl, List.length_map s fn⟩
  · intro S _ g s
    rw [replaceSeq_collect_eq_map]
    exact ⟨rfl, List.length_map s _⟩
  · intro S T fn s
    rw [convertSeq_collect_eq_map]
    exact ⟨rfl, List.length_map s fn⟩
  · intro S s
    rw [anySeq_collect_eq_map]
    exact ⟨rfl, List.length_map s _⟩

/-- C4: `DuplicateSeq` yields a value exactly once, at the moment of its
second sighting (the output equals the second-sighting characterization,
contains no value twice, and contains a value iff it occurs at least
twice in the source); for input `[1,2,3,1,4,2,5,1]` the output is
`[1,2]`. -/
theorem duplicateSeq_second_sighting :
    (∀ (V : Type) [DecidableEq V] (src : List V),
        DuplicateSeq.collect src = dupSecondSighting src
        ∧ (DuplicateSeq.collect src).Nodup
        ∧ (∀ v, v ∈ DuplicateSeq.collect src ↔ 2 ≤ src.count v))
    ∧ DuplicateSeq.collect [1, 2, 3, 1, 4, 2, 5, 1] = ([1, 2] : List Nat) := by
  refine ⟨?_, by decide⟩
  intro V _ src
  refine ⟨duplicateSeq_collect_eq_spec src, ?_, ?_⟩
  · rw [duplicateSeq_collect_eq_spec]
    exact dupSecondSightingAux_nodup src []
  · intro v
    rw [duplicateSeq_collect_eq_spec]
    exact dupSecondSighting_mem src v

/-- C8: deduplication is idempotent, and `DeduplicationSeq` yields each
distinct value exactly once, at its first sighting, in first-seen order
(the output equals the first-sighting characterization, has no
duplicates, and contains exactly the values of the source). -/
theorem deduplicationSeq_idempotent :
    ∀ (V : Type) [DecidableEq V] (src : List V),
      DeduplicationSeq.collect (DeduplicationSeq.collect src)
          = DeduplicationSeq.collect src
      ∧ DeduplicationSeq.collect src = dedupFirstSighting src
      ∧ (DeduplicationSeq.collect src).Nodup
      ∧ (∀ v, v ∈ DeduplicationSeq.collect src ↔ v ∈ src) := by
  intro V _ src
  have hspec := dedupSeq_collect_eq_spec src
  have hnd : (DeduplicationSeq.collect src).Nodup := by
    rw [hspec]
    exact dedupFirstSightingAux_nodup src []
  refine ⟨?_, hspec, hnd, ?_⟩
  · rw [dedupSeq_collect_eq_spec (DeduplicationSeq.collect src)]
    rw [dedupFirstSighting]
    exact dedupFirstSightingAux_of_nodup _ [] hnd (by intro v _; simp)
  · intro v
    rw [hspec, dedupFirstSighting, dedupFirstSightingAux_mem]
    simp

/-- C6: `SumSeq` collects all elements, sorts them ascending and
accumulates in sorted order, so its value is invariant under permutation
of the source; over `[3,1,2]` in any order it returns `6`. -/
theorem sumSeq_sorted_deterministic :
    (∀ (S : Type) [LinearOrder S] [Add S] [Zero S] (l l' : List S),
        l.Perm l' → SumSeq l = SumSeq l')
    ∧ (∀ (S : Type) [LinearOrder S] [Add S] [Zero S] (l : List S),
        SumSeq l = (List.insertionSort (fun a b => a ≤ b) l).foldl
          (fun acc v => acc + v) 0)
    ∧ SumSeq ([3, 1, 2] : List Int) = 6 := by
  refine ⟨?_, ?_, by decide⟩
  · intro S _ _ _ l l' h
    exact SumSeq_perm l l' h
  · intro S _ _ _ l
    rfl

theorem sumSeq_sorted_deterministic_witness :
    SumSeq ([3, 1, 2] : List Int) = SumSeq ([2, 3, 1] : List Int) :=
  sumSeq_sorted_deterministic.1 Int [3, 1, 2] [2, 3, 1] (by decide)

/-- C10: on an empty source every terminal operator returns its neutral
result: `CountSeq` returns 0, `IsEmptySeq` returns true, `SumSeq` returns
the zero value, and `SumFuncSeq` returns the zero value paired with no
error. -/
theorem terminals_neutral_on_empty :
    ∀ (S E T : Type) [LinearOrder T] [Add T] [Zero T] (fn : S → T × Option E),
      CountSeq ([] : List S) = 0
      ∧ IsEmptySeq ([] : List S) = true
      ∧ SumSeq ([] : List T) = 0
      ∧ SumFuncSeq fn [] = (0, none) := by
  intro S E T _ _ _ fn
  refine ⟨rfl, rfl, ?_, rfl⟩
  simp [SumSeq]

/-- C5: `SumFuncSeq` is fail-fast: if `fn` succeeds on every element it
returns the left-to-right accumulated sum and no error; if some element
errs, it returns the zero value paired with the error of the first erring
element, and its result does not depend on anything after that element. -/
theorem sumFuncSeq_fail_fast :
    ∀ (S T E : Type) [Add T] [Zero T] (fn : S → T × Option E) (src : List S),
      ((∀ v ∈ src, (fn v).2 = none) →
        SumFuncSeq fn src = (src.foldl (fun a v => a + (fn v).1) 0, none))
      ∧ (∀ (a : List S) (e : S) (rest : List S) (err : E),
          src = a ++ e :: rest → (∀ v ∈ a, (fn v).2 = none) →
          (fn e).2 = some err →
          SumFuncSeq fn src = (0, some err)
          ∧ SumFuncSeq fn src = SumFuncSeq fn (a ++ [e])) := by
  intro S T E _ _ fn src
  constructor
  · intro h
    exact sumFuncSeq_go_success fn src 0 h
  · intro a e rest err hsrc ha he
    subst hsrc
    constructor
    · exact sumFuncSeq_go_error fn a e rest err ha he 0
    · rw [show SumFuncSeq fn (a ++ e :: rest)
          = SumFuncSeq.go fn (a ++ e :: rest) 0 from rfl]
      rw [show SumFuncSeq fn (a ++ [e]) = SumFuncSeq.go fn (a ++ e :: []) 0 from rfl]
      rw [sumFuncSeq_go_error fn a e rest err ha he 0]
      rw [sumFuncSeq_go_error fn a e [] err ha he 0]

theorem sumFuncSeq_fail_fast_witness :
    SumFuncSeq (fun n : Int => if n = 2 then ((0 : Int), some 7) else (n, none))
        [1, 2, 3] = (0, some (7 : Nat)) :=
  ((sumFuncSeq_fail_fast Int Int Nat
      (fun n : Int => if n = 2 then ((0 : Int), some 7) else (n, none))
      [1, 2, 3]).2 [1] 2 [3] 7 (by decide) (by decide) (by decide)).1

/-- C2 counterexample: constructing `GroupSeq` is NOT consumption-free.
The Go constructor body `for v := range s { ... }` drains the source
before returning: after `GroupSeq.construct` on `[1,2,3]` no upstream
element remains unconsumed, contradicting the claim that construction
consumes no element (in particular for `GroupSeq`). -/
theorem groupSeq_construction_drains :
    ¬ ((GroupSeq.construct (fun n : Nat => n % 2) [1, 2, 3]).2 = [1, 2, 3]) := by
  decide

/-- C2 amended: every combinator except `GroupSeq` consumes no upstream
element at construction (its constructor body only captures its arguments
in a closure); `GroupSeq` alone fully drains its source during the
construction call, before the returned sequence is ever driven. -/
theorem construction_consumption_amended :
    (∀ (S : Type) (fn : S → Bool) (s : List S), FilterSeq.construct fn s = s)
    ∧ (∀ (S : Type) (s g : List S), RemoveSeq.construct s g = s)
    ∧ (∀ (S : Type) (txt : S → String) (accepts : String → Bool) (s : List S),
        PatternSeq.construct txt accepts s = s)
    ∧ (∀ (S : Type) (txt : S → String) (pattern : String) (s : List S),
        StringPatternSeq.construct txt pattern s = s)
    ∧ (∀ (V : Type) (s : List V), DuplicateSeq.construct s = ([], s))
    ∧ (∀ (V : Type) (s : List V), DeduplicationSeq.construct s = ([], s))
    ∧ (∀ (E : Type) (s : List E), HashSeq.construct s = s)
    ∧ (∀ (S : Type) (fn : S → S) (s : List S), ReplaceFuncSeq.construct fn s = s)
    ∧ (∀ (S : Type) (g : List (S × S)) (s : List S), ReplaceSeq.construct g s = s)
    ∧ (∀ (S T : Type) (fn : S → T) (s : List S), ConvertSeq.construct fn s = s)
    ∧ (∀ (S : Type) (s : List S), AnySeq.construct s = s)
    ∧ (∀ (E H : Type) [DecidableEq H] (fn : E → H) (s : List E),
        (GroupSeq.construct fn s).2 = []) := by
  refine ⟨fun S fn s => rfl, fun S s g => rfl, fun S txt a s => rfl,
    fun S txt p s => rfl, fun V s => rfl, fun V s => rfl, fun E s => rfl,
    fun S fn s => rfl, fun S g s => rfl, fun S T fn s => rfl, fun S s => rfl, ?_⟩
  intro E H _ fn s
  exact groupSeq_build_remaining fn s []

/-- C3 counterexample: a combinator instance DOES carry state beyond one
traversal.  A `DeduplicationSeq` instance constructed on source `[1]`
yields `[1]` on its first full drive, but the closure-captured seen-table
survives, so driving the same instance a second time yields `[]`, not the
same elements. -/
theorem deduplicationSeq_second_drive_differs :
    ¬ ((DeduplicationSeq.drive collectAll [1]
          (DeduplicationSeq.drive collectAll ([1] : List Nat) [] []).1 []).2.1
        = (DeduplicationSeq.drive collectAll ([1] : List Nat) [] []).2.1) := by
  decide

/-- C3 amended: a combinator instance retains its closure-captured table
across drives, so a second drive of the same instance is not a fresh
traversal: re-driving a fully-driven `DeduplicationSeq` instance yields
no elements at all (every source value is already in the retained seen
set), and a re-driven `DuplicateSeq` instance treats retained counts as
prior sightings (on source `[1]` the first drive yields `[]`, the second
yields `[1]`).  Independence holds only across separate construction
calls, each of which allocates a fresh empty table. -/
theorem instance_state_across_drives_amended :
    (∀ (V : Type) [DecidableEq V] (src : List V),
        (DeduplicationSeq.drive collectAll src
            (DeduplicationSeq.drive collectAll src
              (DeduplicationSeq.construct src).1 []).1 []).2.1 = [])
    ∧ (DuplicateSeq.drive collectAll ([1] : List Nat)
          (DuplicateSeq.construct ([1] : List Nat)).1 []).2.1 = []
    ∧ (DuplicateSeq.drive collectAll [1]
          (DuplicateSeq.drive collectAll ([1] : List Nat)
            (DuplicateSeq.construct ([1] : List Nat)).1 []).1 []).2.1 = [1] := by
  refine ⟨?_, by decide, by decide⟩
  intro V _ src
  apply dedupSeq_drive_allSeen
  intro v hv
  exact dedupSeq_finalMap_covers src _ [] v hv

/-- C1: for every combinator, driving the resulting sequence with a
visitor that always returns `false` invokes that visitor exactly once
(whenever the sequence yields at all), and after the `false` no further
upstream elements are consumed — the drive returns with exactly the
elements after the first yielded one still unconsumed, regardless of how
long the upstream source is.  One conjunct per combinator: `FilterSeq`,
`RemoveSeq`, `PatternSeq`, `StringPatternSeq`, `DuplicateSeq`,
`DeduplicationSeq`, `HashSeq`, `GroupSeq`, `ReplaceFuncSeq`,
`ReplaceSeq`, `ConvertSeq`, `AnySeq`. -/
theorem earlyTermination_single_visit :
    (∀ (S : Type) (fn : S → Bool) (a : List S) (v : S) (rest : List S),
        (∀ u ∈ a, fn u = false) → fn v = true →
        FilterSeq.drive fn alwaysFalseCount (a ++ v :: rest) 0 = (1, rest))
    ∧ (∀ (S : Type) [DecidableEq S] (g : List S) (a : List S) (v : S) (rest : List S),
        (∀ u ∈ a, RemoveSeq.found u g = true) → RemoveSeq.found v g = false →
        RemoveSeq.drive g alwaysFalseCount (a ++ v :: rest) 0 = (1, rest))
    ∧ (∀ (S : Type) (txt : S → String) (accepts : String → Bool)
        (a : List S) (v : S) (rest : List S),
        (∀ u ∈ a, accepts (txt u) = false) → accepts (txt v) = true →
        PatternSeq.drive txt accepts alwaysFalseCount (a ++ v :: rest) 0 = (1, rest))
    ∧ (∀ (S : Type) (txt : S → String) (pattern : String)
        (a : List S) (v : S) (rest : List S),
        (∀ u ∈ a, ¬ txt u = pattern) → txt v = pattern →
        StringPatternSeq.drive txt pattern alwaysFalseCount (a ++ v :: rest) 0
          = (1, rest))
    ∧ (∀ (V : Type) [DecidableEq V] (src a b rest : List V) (v : V),
        src = a ++ v :: b ++ v :: rest → (a ++ v :: b).Nodup →
        (DuplicateSeq.drive alwaysFalseCount src [] 0).2 = (1, rest))
    ∧ (∀ (V : Type) [DecidableEq V] (v : V) (rest : List V),
        (DeduplicationSeq.drive alwaysFalseCount (v :: rest) [] 0).2 = (1, rest))
    ∧ (∀ (E : Type) (h : E → Nat) (v : E) (rest : List E),
        HashSeq.drive h alwaysFalseCount2 (v :: rest) 0 = (1, rest))
    ∧ (∀ (E H : Type) [DecidableEq H] (fn : E → H) (s : List E), s ≠ [] →
        (GroupSeq.drive alwaysFalseCount (GroupSeq.construct fn s).1 0).1 = 1)
    ∧ (∀ (S : Type) (fn : S → S) (v : S) (rest : List S),
        ReplaceFuncSeq.drive fn alwaysFalseCount (v :: rest) 0 = (1, rest))
    ∧ (∀ (S : Type) [DecidableEq S] (g : List (S × S)) (v : S) (rest : List S),
        ReplaceSeq.drive g alwaysFalseCount (v :: rest) 0 = (1, rest))
    ∧ (∀ (S T : Type) (fn : S → T) (v : S) (rest : List S),
        ConvertSeq.drive fn alwaysFalseCount (v :: rest) 0 = (1, rest))
    ∧ (∀ (S : Type) (v : S) (rest : List S),
        AnySeq.drive alwaysFalseCount (v :: rest) 0 = (1, rest)) := by
  refine ⟨?_, ?_, ?_, ?_, ?_, ?_, ?_, ?_, ?_, ?_, ?_, ?_⟩
  · intro S fn a v rest ha hv
    exact filterSeq_drive_stop fn a v rest ha hv 0
  · intro S _ g a v rest ha hv
    exact removeSeq_drive_stop g a v rest ha hv 0
  · intro S txt accepts a v rest ha hv
    exact patternSeq_drive_stop txt accepts a v rest ha hv 0
  · intro S txt pattern a v rest ha hv
    exact stringPatternSeq_drive_stop txt pattern a v rest ha hv 0
  · intro V _ src a b rest v hsrc hnd
    subst hsrc
    rw [show a ++ v :: b ++ v :: rest = (a ++ v :: b) ++ v :: rest from by simp]
    exact duplicateSeq_drive_stop a v b rest hnd 0
  · intro V _ v rest
    rw [dedupSeq_drive_stop v rest 0]
  · intro E h v rest
    exact hashSeq_drive_stop h v rest 0
  · intro E H _ fn s hs
    exact groupSeq_drive_stop _ 0 (groupSeq_build_ne_nil fn s [] (Or.inr hs))
  · intro S fn v rest
    exact replaceFuncSeq_drive_stop fn v rest 0
  · intro S _ g v rest
    exact replaceSeq_drive_stop g v rest 0
  · intro S T fn v rest
    exact convertSeq_drive_stop fn v rest 0
  · intro S v rest
    exact anySeq_drive_stop v rest 0

theorem earlyTermination_single_visit_witness :
    FilterSeq.drive (fun n => decide (2 < n)) alwaysFalseCount
        ([1, 2] ++ 3 :: [4, 5] : List Nat) 0 = (1, [4, 5])
    ∧ RemoveSeq.drive [1, 2] alwaysFalseCount ([1, 2] ++ 3 :: [4] : List Nat) 0
        = (1, [4])
    ∧ PatternSeq.drive (fun n : Nat => toString n) (fun t => decide (t = "2"))
        alwaysFalseCount ([1] ++ 2 :: [3, 4]) 0 = (1, [3, 4])
    ∧ StringPatternSeq.drive (fun n : Nat => toString n) "2" alwaysFalseCount
        ([1] ++ 2 :: [3, 4]) 0 = (1, [3, 4])
    ∧ (DuplicateSeq.drive alwaysFalseCount ([1, 2, 3, 2, 9] : List Nat) [] 0).2
        = (1, [9])
    ∧ (DeduplicationSeq.drive alwaysFalseCount (7 :: [8, 9] : List Nat) [] 0).2
        = (1, [8, 9])
    ∧ HashSeq.drive (fun n : Nat => n * n) alwaysFalseCount2 (5 :: [6, 7]) 0
        = (1, [6, 7])
    ∧ (GroupSeq.drive alwaysFalseCount
        (GroupSeq.construct (fun n : Nat => n % 2) [1, 2, 3]).1 0).1 = 1
    ∧ ReplaceFuncSeq.drive (fun n : Nat => n + 1) alwaysFalseCount (4 :: [5, 6]) 0
        = (1, [5, 6])
    ∧ ReplaceSeq.drive [(1, 10)] alwaysFalseCount (1 :: [2, 3] : List Nat) 0
        = (1, [2, 3])
    ∧ ConvertSeq.drive (fun n : Nat => toString n) alwaysFalseCount (4 :: [5, 6]) 0
        = (1, [5, 6])
    ∧ AnySeq.drive alwaysFalseCount (4 :: [5, 6] : List Nat) 0 = (1, [5, 6]) := by
  obtain ⟨h1, h2, h3, h4, h5, h6, h7, h8, h9, h10, h11, h12⟩ :=
    earlyTermination_single_visit
  refine ⟨h1 Nat (fun n => decide (2 < n)) [1, 2] 3 [4, 5] (by decide) (by decide),
    h2 Nat [1, 2] [1, 2] 3 [4] (by decide) (by decide),
    h3 Nat (fun n => toString n) (fun t => decide (t = "2")) [1] 2 [3, 4]
      (by decide) (by decide),
    h4 Nat (fun n => toString n) "2" [1] 2 [3, 4] (by decide) (by decide),
    h5 Nat [1, 2, 3, 2, 9] [1] [3] [9] 2 (by decide) (by decide),
    h6 Nat 7 [8, 9],
    h7 Nat (fun n => n * n) 5 [6, 7],
    h8 Nat Nat (fun n => n % 2) [1, 2, 3] (by decide),
    h9 Nat (fun n => n + 1) 4 [5, 6],
    h10 Nat [(1, 10)] 1 [2, 3],
    h11 Nat String (fun n => toString n) 4 [5, 6],
    h12 Nat 4 [5, 6]⟩
